import Mathlib

/-!
A shallow embedding of `src/bin/ll2cfg.rs` (the LLVM-IR control-flow-graph
extractor) together with proofs about its parser and renderer.

Lines of text are modelled as lists of characters.  The three regular
expressions of the source (`define_re`, `block_name_re`, `jump_re`) are
hand-compiled into deterministic matching functions; each is annotated with
the regex it implements and the leftmost-first (greedy) semantics of the
`regex` crate is reproduced where backtracking matters (only the
`.*@` of `define_re` has real choice points; they are tried right-to-left).
Whitespace is the ASCII whitespace that can appear in an input line.
-/

namespace LL

/-- Lines of text are modelled as lists of characters. -/
abbrev Str := List Char

/-- View a Lean string literal as a character list. -/
def str (s : String) : Str := s.data

/-- The whitespace class used throughout the source: `\s` in the regexes,
`char::is_whitespace` in `trim` and `split_whitespace`. -/
def isWs (c : Char) : Bool := c.isWhitespace

/-- Identifier characters of the source regexes: `[0-9a-zA-Z_\.]`. -/
def isIdentChar (c : Char) : Bool := c.isAlphanum || c == '_' || c == '.'

/-- Rust `str::split(sep)` for a one-character separator: split at every
occurrence, keeping empty segments (`"a,,b"` gives three segments). -/
def splitOnChar (sep : Char) : Str → List Str
  | [] => [[]]
  | c :: cs =>
    if c = sep then [] :: splitOnChar sep cs
    else
      match splitOnChar sep cs with
      | [] => [[c]]
      | s :: ss => (c :: s) :: ss

/-- Rust `str::split(sep)` for a two-character separator (used with `", "`):
non-overlapping occurrences are found left to right. -/
def splitOnSep2 (a b : Char) : Str → List Str
  | [] => [[]]
  | [c] => [[c]]
  | c :: d :: cs =>
    if c = a ∧ d = b then [] :: splitOnSep2 a b cs
    else
      match splitOnSep2 a b (d :: cs) with
      | [] => [[c]]
      | s :: ss => (c :: s) :: ss

/-- Split at every whitespace character, keeping empty segments. -/
def splitWsRaw : Str → List Str
  | [] => [[]]
  | c :: cs =>
    if isWs c then [] :: splitWsRaw cs
    else
      match splitWsRaw cs with
      | [] => [[c]]
      | s :: ss => (c :: s) :: ss

/-- Rust `str::split_whitespace`: the whitespace-delimited tokens of a line,
with no empty tokens. -/
def split_whitespace (cs : Str) : List Str :=
  (splitWsRaw cs).filter (fun s => ¬ s.isEmpty)

/-- Rust `str::trim`: remove leading and trailing whitespace. -/
def trimChars (cs : Str) : Str :=
  ((cs.dropWhile isWs).reverse.dropWhile isWs).reverse

/-- Rust `str::contains(pat)`: `pat` occurs as a contiguous substring. -/
def containsSub : Str → Str → Bool
  | [], pat => pat.isPrefixOf ([] : Str)
  | c :: cs, pat => pat.isPrefixOf (c :: cs) || containsSub cs pat

/-- The capture of `jump_re = ^\s*br\s+(.*)`: leading whitespace, the literal
`br`, at least one whitespace character, then the rest of the line (the greedy
`\s+` absorbs the whole whitespace run before the capture starts). -/
def jumpMatch (l : Str) : Option Str :=
  match l.dropWhile isWs with
  | 'b' :: 'r' :: c :: rest => if isWs c then some (rest.dropWhile isWs) else none
  | _ => none

/-- The optional group `\s*;\s*preds\s*=\s*(.*)$` of `block_name_re`, applied
to the text following the colon; returns the capture of the final `(.*)`. -/
def predsAnnMatch (rest : Str) : Option Str :=
  match rest.dropWhile isWs with
  | ';' :: r2 =>
    let r3 := r2.dropWhile isWs
    if (str "preds").isPrefixOf r3 then
      match (r3.drop 5).dropWhile isWs with
      | '=' :: r4 => some (r4.dropWhile isWs)
      | _ => none
    else none
  | _ => none

/-- The block-label pattern `block_name_re =
`^([0-9a-zA-Z_\.]+):(\s*;\s*preds\s*=\s*(.*))?$``: since identifier
characters exclude `:`, the identifier is exactly the maximal identifier
prefix, the next character must be `:`, and what follows is either empty or
the predecessor annotation.  Returns the name capture and the optional
annotation capture. -/
def blockNameMatch (l : Str) : Option (Str × Option Str) :=
  let name := l.takeWhile isIdentChar
  if name.isEmpty then none
  else
    match l.drop name.length with
    | ':' :: rest =>
      if rest.isEmpty then some (name, none)
      else
        match predsAnnMatch rest with
        | some p => some (name, some p)
        | none => none
    | _ => none

/-- One backtracking attempt of `define_re` at a fixed `@`: the text after the
`@` must start with a nonempty identifier (`([a-zA-Z0-9_\.]+)`, greedy hence
maximal), then `\s*\(`, and the remainder must contain a `)` and end in `{`
(which resolves `.*\)\s*(.*)\s*\{$`). -/
def tryAt (post : Str) : Option Str :=
  let ident := post.takeWhile isIdentChar
  if ident.isEmpty then none
  else
    match (post.drop ident.length).dropWhile isWs with
    | '(' :: r2 =>
      if r2.getLast? = some '\x7b' ∧ r2.contains ')' then some ident else none
    | _ => none

/-- Candidate `@` positions for the greedy `.*@` of `define_re`, tried
right-to-left (leftmost-first regex semantics: the longest `.*` first). -/
def headerSearch : Str → Option Str
  | [] => none
  | '@' :: rest =>
    (match headerSearch rest with
     | some r => some r
     | none => tryAt rest)
  | _ :: rest => headerSearch rest

/-- The function-header pattern `define_re =
`^define\s+.*@([a-zA-Z0-9_\.]+)\s*\(.*\)\s*(.*)\s*\{$``; returns the captured
function name.  The line must start with `define` followed by a whitespace
character; the `@` may sit anywhere in the remainder. -/
def headerMatch (l : Str) : Option Str :=
  if (str "define").isPrefixOf l then
    match l.drop 6 with
    | d :: rest => if isWs d then headerSearch rest else none
    | [] => none
  else none

/-- Graph model: one basic block (`struct BasicBlock` of the source). -/
structure BasicBlock where
  name : Str
  instructions : List Str
  predecessors : List Str
  successors : List Str
deriving DecidableEq, Repr

/-- Graph model: one function (`struct Function` of the source). -/
structure Function where
  name : Str
  define : Str
  blocks : List BasicBlock
deriving DecidableEq, Repr

/-- Append the currently open block, if any, to the accumulated list (the
`if let Some(block) = current_block { blocks.push(block) }` idiom). -/
def finalize (cur : Option BasicBlock) (blocks : List BasicBlock) : List BasicBlock :=
  match cur with
  | some b => blocks ++ [b]
  | none => blocks

/-- The block opened implicitly for instruction text before any label.  The
source names it `"%1"` (ll2cfg.rs line 184). -/
def implicitBlock : BasicBlock :=
  { name := str "%1", instructions := [], predecessors := [], successors := [] }

/-- Successor extraction from the capture of `jump_re`: split on commas, keep
the segments containing `"label "`, and take each one's last
whitespace-delimited token.  The source unwraps that last token; the `.getD`
default is never taken (proved below), mirroring that the unwrap cannot
panic. -/
def extractTargets (jc : Str) : List Str :=
  ((splitOnChar ',' jc).filter (fun s => containsSub s (str "label "))).map
    (fun s => ((split_whitespace s).getLast?).getD [])

/-- Process one instruction line against the open block: append the line to
`instructions` unless it is whitespace-only, and append the extracted branch
targets to `successors` when the line matches `jump_re`. -/
def applyInstr (l : Str) (b : BasicBlock) : BasicBlock :=
  let b1 := if trimChars l ≠ [] then { b with instructions := b.instructions ++ [l] } else b
  match jumpMatch l with
  | some jc => { b1 with successors := b1.successors ++ extractTargets jc }
  | none => b1

/-- Result of processing one line of a function body: either continue with
updated state, or stop (the `}` line was seen). -/
inductive StepOut where
  | cont (blocks : List BasicBlock) (cur : Option BasicBlock) : StepOut
  | done (blocks : List BasicBlock) : StepOut
deriving DecidableEq, Repr

/-- One iteration of the body loop of `parse_function`, in the source's
priority order: block label, then the closing brace, then instruction text. -/
def stepLine (l : Str) (blocks : List BasicBlock) (cur : Option BasicBlock) : StepOut :=
  match blockNameMatch l with
  | some (name, ann) =>
    let predecessors :=
      match ann with
      | some s => splitOnSep2 ',' ' ' s
      | none => []
    .cont (finalize cur blocks)
      (some { name := name, instructions := [], predecessors := predecessors,
              successors := [] })
  | none =>
    if l = str "\x7d" then .done (finalize cur blocks)
    else .cont blocks (some (applyInstr l (cur.getD implicitBlock)))

/-- The body loop of `parse_function`: consume lines until the closing brace
or the end of input, returning the accumulated blocks and the unconsumed
lines.  On exhausted input, the open block is finalized and no error is
raised. -/
def parse_function : List Str → List BasicBlock → Option BasicBlock →
    List BasicBlock × List Str
  | [], blocks, cur => (finalize cur blocks, [])
  | l :: ls, blocks, cur =>
    match stepLine l blocks cur with
    | .done bs => (bs, ls)
    | .cont bs c => parse_function ls bs c

/-- Recursion core of the function extractor.  Each loop iteration of the
source consumes at least one line, so the number of remaining lines bounds
the number of iterations; that bound is passed as structural fuel (proved
sufficient and irrelevant below). -/
def parse_ll_go : Nat → List Str → List Function
  | _, [] => []
  | 0, _ :: _ => []
  | n + 1, l :: ls =>
    match headerMatch l with
    | some name =>
      { name := name, define := l, blocks := (parse_function ls [] none).1 }
        :: parse_ll_go n (parse_function ls [] none).2
    | none => parse_ll_go n ls

/-- The function extractor `parse_ll_file`: scan for header lines, hand the
following lines to `parse_function`, and collect one `Function` record per
header match.  Lines consumed by a body are not seen again. -/
def parse_ll_file (lines : List Str) : List Function :=
  parse_ll_go lines.length lines

/-- Recursion core of the top-level header count, with the same fuel. -/
def countHeadersGo : Nat → List Str → Nat
  | _, [] => 0
  | 0, _ :: _ => 0
  | n + 1, l :: ls =>
    match headerMatch l with
    | some _ => 1 + countHeadersGo n (parse_function ls [] none).2
    | none => countHeadersGo n ls

/-- The number of lines matching the header pattern at the top level: body
lines (those consumed by `parse_function`) are skipped, not reconsidered as
headers. -/
def countHeaders (lines : List Str) : Nat :=
  countHeadersGo lines.length lines

/-- Display name of a block in the diagram (`dump_cfg` line 103): `%1` for
the empty name, otherwise `%` prepended to the name. -/
def displayName (name : Str) : Str :=
  if name = [] then str "%1" else '%' :: name

/-- One directed-edge line of the diagram:
`\t<src> -->|<display>| <display>`. -/
def edgeLine (src dn : Str) : Str :=
  '\t' :: src ++ str " -->|" ++ dn ++ str "| " ++ dn

/-- Rust `Vec::join("\n")`. -/
def joinNl : List Str → Str
  | [] => []
  | [x] => x
  | x :: xs => x ++ '\n' :: joinNl xs

/-- The node-definition line: `<display>["<instructions joined by \n>"]`. -/
def nodeLine (dn : Str) (instrs : List Str) : Str :=
  dn ++ str "[\"" ++ joinNl instrs ++ str "\"]"

/-- Last instruction, trimmed, starts with `ret ` (`dump_cfg` line 111). -/
def isRet (b : BasicBlock) : Bool :=
  match b.instructions.getLast? with
  | some s => (str "ret ").isPrefixOf (trimChars s)
  | none => false

/-- Last instruction, trimmed, starts with `unreachable` (line 112). -/
def isUnreach (b : BasicBlock) : Bool :=
  match b.instructions.getLast? with
  | some s => (str "unreachable").isPrefixOf (trimChars s)
  | none => false

/-- The lines `dump_cfg` writes for one block: its predecessor edges, then
(unless abbreviated) its node definition, then its style directives. -/
def renderBlock (abbr : Bool) (b : BasicBlock) : List Str :=
  let dn := displayName b.name
  b.predecessors.map (fun src => edgeLine src dn)
    ++ (if abbr = false then [nodeLine dn b.instructions] else [])
    ++ (if isRet b then [str "style " ++ dn ++ str " stroke:#0f0"] else [])
    ++ (if isUnreach b then [str "style " ++ dn ++ str " stroke:#f00"] else [])

/-- The full output of `dump_cfg` for one function, as the list of lines
written to the sink, in order. -/
def dump_cfg (f : Function) (abbr : Bool) : List Str :=
  str "```mermaid" :: str "flowchart TD" :: (str "%% function " ++ f.name)
    :: ((f.blocks.map (renderBlock abbr)).flatten ++ [str "```"])

/-- A block whose instruction list has no empty or whitespace-only line. -/
def goodBlock (b : BasicBlock) : Bool :=
  b.instructions.all (fun i => !(trimChars i).isEmpty)

/-- Characters legal in a branch-target name for the statements about
successor extraction: no whitespace and no comma. -/
def plainName (x : Str) : Prop := ∀ c ∈ x, isWs c = false ∧ c ≠ ','

instance (x : Str) : Decidable (plainName x) :=
  inferInstanceAs (Decidable (∀ c ∈ x, isWs c = false ∧ c ≠ ','))

/-- The comma-separated labelled arms `label %x1, label %x2, ...` of a
branch instruction with the given target names. -/
def joinArms : List Str → Str
  | [] => []
  | [x] => str "label %" ++ x
  | x :: y :: xs => str "label %" ++ x ++ str ", " ++ joinArms (y :: xs)

/-- A rendered line is a directed-edge line exactly when it starts with the
tab character (edge lines are the only ones `dump_cfg` writes with a leading
tab; all other lines start with a backtick, a letter, or a percent sign). -/
def isEdgeLine (ln : Str) : Bool := ln.head? == some '\t'


/-- The body loop never produces leftover input longer than its input (it
shares the line cursor with the extractor). -/
theorem parse_function_rest_le (ls : List Str) :
    ∀ blocks cur, (parse_function ls blocks cur).2.length ≤ ls.length := by
  induction ls with
  | nil => intro blocks cur; simp [parse_function]
  | cons l ls ih =>
    intro blocks cur
    simp only [parse_function]
    cases stepLine l blocks cur with
    | done bs => simp
    | cont bs c => exact Nat.le_succ_of_le (ih bs c)

/-- The fuel argument of `parse_ll_go` is irrelevant once it covers the
number of remaining lines. -/
theorem parse_ll_go_congr : ∀ n : Nat, ∀ (m : Nat) (lines : List Str),
    lines.length ≤ n → lines.length ≤ m → parse_ll_go n lines = parse_ll_go m lines := by
  intro n
  induction n with
  | zero =>
    intro m lines h1 _
    have : lines = [] := List.eq_nil_of_length_eq_zero (Nat.le_zero.mp h1)
    subst this
    cases m <;> rfl
  | succ n ih =>
    intro m lines h1 h2
    cases lines with
    | nil => cases m <;> rfl
    | cons l ls =>
      cases m with
      | zero => exact absurd h2 (by simp)
      | succ m =>
        simp only [List.length_cons, Nat.add_le_add_iff_right] at h1 h2
        simp only [parse_ll_go]
        cases headerMatch l with
        | none => exact ih m ls h1 h2
        | some name =>
          have hr := parse_function_rest_le ls [] none
          rw [ih m _ (le_trans hr h1) (le_trans hr h2)]

/-- Unfolding equation of `parse_ll_file`, mirroring the source loop. -/
theorem parse_ll_file_cons (l : Str) (ls : List Str) :
    parse_ll_file (l :: ls) =
      match headerMatch l with
      | some name =>
        { name := name, define := l, blocks := (parse_function ls [] none).1 }
          :: parse_ll_file (parse_function ls [] none).2
      | none => parse_ll_file ls := by
  unfold parse_ll_file
  simp only [List.length_cons, parse_ll_go]
  cases headerMatch l with
  | none => rfl
  | some name =>
    rw [parse_ll_go_congr ls.length _ _ (parse_function_rest_le ls [] none) le_rfl]

/-- The fuel argument of `countHeadersGo` is irrelevant once it covers the
number of remaining lines. -/
theorem countHeadersGo_congr : ∀ n : Nat, ∀ (m : Nat) (lines : List Str),
    lines.length ≤ n → lines.length ≤ m → countHeadersGo n lines = countHeadersGo m lines := by
  intro n
  induction n with
  | zero =>
    intro m lines h1 _
    have : lines = [] := List.eq_nil_of_length_eq_zero (Nat.le_zero.mp h1)
    subst this
    cases m <;> rfl
  | succ n ih =>
    intro m lines h1 h2
    cases lines with
    | nil => cases m <;> rfl
    | cons l ls =>
      cases m with
      | zero => exact absurd h2 (by simp)
      | succ m =>
        simp only [List.length_cons, Nat.add_le_add_iff_right] at h1 h2
        simp only [countHeadersGo]
        cases headerMatch l with
        | none => exact ih m ls h1 h2
        | some name =>
          have hr := parse_function_rest_le ls [] none
          rw [ih m _ (le_trans hr h1) (le_trans hr h2)]

/-- Unfolding equation of `countHeaders`. -/
theorem countHeaders_cons (l : Str) (ls : List Str) :
    countHeaders (l :: ls) =
      match headerMatch l with
      | some _ => 1 + countHeaders (parse_function ls [] none).2
      | none => countHeaders ls := by
  unfold countHeaders
  simp only [List.length_cons, countHeadersGo]
  cases headerMatch l with
  | none => rfl
  | some name =>
    rw [countHeadersGo_congr ls.length _ _ (parse_function_rest_le ls [] none) le_rfl]

/-- Every string contains the empty pattern. -/
theorem containsSub_nil_pat : ∀ s : Str, containsSub s [] = true
  | [] => rfl
  | _ :: _ => by simp [containsSub]

/-- A string of the form `a ++ pat ++ b` contains `pat`. -/
theorem containsSub_of_append (pat a b : Str) :
    containsSub (a ++ pat ++ b) pat = true := by
  induction a with
  | nil =>
    cases pat with
    | nil => simpa using containsSub_nil_pat b
    | cons p ps =>
      have : (p :: ps) ++ b = p :: (ps ++ b) := rfl
      simp only [List.nil_append, this, containsSub, List.isPrefixOf_iff_prefix,
        Bool.or_eq_true, decide_eq_true_eq]
      exact Or.inl (List.prefix_append (p :: ps) b)
  | cons c a ih =>
    have : (c :: a) ++ pat ++ b = c :: (a ++ pat ++ b) := rfl
    rw [this]
    cases pat with
    | nil => exact containsSub_nil_pat _
    | cons p ps =>
      rw [show containsSub (c :: (a ++ (p :: ps) ++ b)) (p :: ps)
          = ((p :: ps).isPrefixOf (c :: (a ++ (p :: ps) ++ b))
            || containsSub (a ++ (p :: ps) ++ b) (p :: ps)) from rfl,
        Bool.or_eq_true]
      exact Or.inr ih

/-- A string containing `pat` decomposes around an occurrence of `pat`. -/
theorem exists_of_containsSub (pat : Str) :
    ∀ s : Str, containsSub s pat = true → ∃ a b, s = a ++ pat ++ b := by
  intro s
  induction s with
  | nil =>
    intro h
    cases pat with
    | nil => exact ⟨[], [], rfl⟩
    | cons p ps => exact absurd h (by simp [containsSub, List.isPrefixOf])
  | cons c cs ih =>
    intro h
    rw [show containsSub (c :: cs) pat
        = (pat.isPrefixOf (c :: cs) || containsSub cs pat) from rfl,
      Bool.or_eq_true] at h
    cases h with
    | inl h =>
      obtain ⟨t, ht⟩ := List.isPrefixOf_iff_prefix.mp h
      exact ⟨[], t, ht.symm⟩
    | inr h =>
      obtain ⟨a, b, hab⟩ := ih h
      exact ⟨c :: a, b, by simp [hab]⟩

/-- Splitting on a character never produces the empty segment list. -/
theorem splitOnChar_ne_nil (sep : Char) : ∀ s : Str, splitOnChar sep s ≠ [] := by
  intro s
  induction s with
  | nil => simp [splitOnChar]
  | cons c cs ih =>
    simp only [splitOnChar]
    split
    · simp
    · cases h : splitOnChar sep cs <;> simp

/-- Splitting a separator-free string gives a single segment. -/
theorem splitOnChar_no_sep (sep : Char) :
    ∀ s : Str, sep ∉ s → splitOnChar sep s = [s] := by
  intro s
  induction s with
  | nil => intro _; rfl
  | cons c cs ih =>
    intro h
    have hc : ¬ c = sep := fun hcs => h (hcs ▸ List.mem_cons_self c cs)
    have hcs : sep ∉ cs := fun hm => h (List.mem_cons_of_mem c hm)
    simp only [splitOnChar, if_neg hc, ih hcs]

/-- Splitting at the first separator occurrence peels off the leading
separator-free segment. -/
theorem splitOnChar_append_sep (sep : Char) :
    ∀ (a b : Str), sep ∉ a →
      splitOnChar sep (a ++ sep :: b) = a :: splitOnChar sep b := by
  intro a
  induction a with
  | nil => intro b _; simp [splitOnChar]
  | cons c a ih =>
    intro b h
    have hc : ¬ c = sep := fun hcs => h (hcs ▸ List.mem_cons_self c a)
    have ha : sep ∉ a := fun hm => h (List.mem_cons_of_mem c hm)
    have : (c :: a) ++ sep :: b = c :: (a ++ sep :: b) := rfl
    rw [this]
    simp only [splitOnChar, if_neg hc, ih b ha]

/-- Splitting on whitespace never produces the empty segment list. -/
theorem splitWsRaw_ne_nil : ∀ s : Str, splitWsRaw s ≠ [] := by
  intro s
  induction s with
  | nil => simp [splitWsRaw]
  | cons c cs ih =>
    simp only [splitWsRaw]
    split
    · simp
    · cases h : splitWsRaw cs <;> simp

/-- A whitespace-free string is a single whitespace token. -/
theorem splitWsRaw_all_nonws :
    ∀ s : Str, (∀ c ∈ s, isWs c = false) → splitWsRaw s = [s] := by
  intro s
  induction s with
  | nil => intro _; rfl
  | cons c cs ih =>
    intro h
    have hc : isWs c = false := h c (List.mem_cons_self c cs)
    have hcs : ∀ x ∈ cs, isWs x = false := fun x hx => h x (List.mem_cons_of_mem c hx)
    simp only [splitWsRaw, hc, Bool.false_eq_true, if_false, ih hcs]

/-- Unfolding `splitWsRaw` at a non-whitespace character. -/
theorem splitWsRaw_cons_nonws (c : Char) (cs : Str) (hc : isWs c = false) :
    splitWsRaw (c :: cs) =
      match splitWsRaw cs with
      | [] => [[c]]
      | s :: ss => (c :: s) :: ss := by
  simp only [splitWsRaw, hc, Bool.false_eq_true, if_false]

/-- Unfolding `splitWsRaw` at a whitespace character. -/
theorem splitWsRaw_cons_ws (c : Char) (cs : Str) (hc : isWs c = true) :
    splitWsRaw (c :: cs) = [] :: splitWsRaw cs := by
  simp only [splitWsRaw, hc, if_true]

/-- A leading whitespace character does not change the token list. -/
theorem split_whitespace_cons_ws (c : Char) (cs : Str) (hc : isWs c = true) :
    split_whitespace (c :: cs) = split_whitespace cs := by
  simp [split_whitespace, splitWsRaw_cons_ws c cs hc]

/-- A leading run of whitespace does not change the token list. -/
theorem split_whitespace_ws_append (lead : Str) (hl : ∀ c ∈ lead, isWs c = true)
    (s : Str) : split_whitespace (lead ++ s) = split_whitespace s := by
  induction lead with
  | nil => rfl
  | cons c cs ih =>
    have hc : isWs c = true := hl c (List.mem_cons_self c cs)
    have hcs : ∀ x ∈ cs, isWs x = true := fun x hx => hl x (List.mem_cons_of_mem c hx)
    rw [List.cons_append, split_whitespace_cons_ws c _ hc, ih hcs]

/-- The whitespace tokens of `label %x` for a whitespace-free `x`. -/
theorem split_whitespace_label (x : Str) (hx : ∀ c ∈ x, isWs c = false) :
    split_whitespace (str "label %" ++ x) = [str "label", '%' :: x] := by
  have h1 : splitWsRaw ('%' :: x) = ['%' :: x] := by
    refine splitWsRaw_all_nonws _ ?_
    intro c hc
    rcases List.mem_cons.mp hc with h | h
    · subst h; rfl
    · exact hx c h
  show split_whitespace ('l' :: 'a' :: 'b' :: 'e' :: 'l' :: ' ' :: '%' :: x) = _
  rw [split_whitespace,
    splitWsRaw_cons_nonws 'l' _ rfl, splitWsRaw_cons_nonws 'a' _ rfl,
    splitWsRaw_cons_nonws 'b' _ rfl, splitWsRaw_cons_nonws 'e' _ rfl,
    splitWsRaw_cons_nonws 'l' _ rfl, splitWsRaw_cons_ws ' ' _ rfl, h1]
  rfl

/-- If a string has a non-whitespace character, it has a whitespace token. -/
theorem split_whitespace_ne_nil (s : Str) (c : Char) (hc : c ∈ s)
    (hw : isWs c = false) : split_whitespace s ≠ [] := by
  induction s with
  | nil => cases hc
  | cons d ds ih =>
    by_cases hd : isWs d = true
    · rw [split_whitespace_cons_ws d ds hd]
      rcases List.mem_cons.mp hc with h | h
      · subst h; rw [hd] at hw; cases hw
      · exact ih h
    · have hd' : isWs d = false := by revert hd; cases isWs d <;> simp
      rw [split_whitespace, splitWsRaw_cons_nonws d ds hd']
      cases h : splitWsRaw ds with
      | nil => exact absurd h (splitWsRaw_ne_nil ds)
      | cons s ss => simp [List.filter]

/-- A comma never occurs in a whitespace run. -/
theorem comma_not_mem_ws (lead : Str) (hlead : ∀ c ∈ lead, isWs c = true) :
    ',' ∉ lead := by
  intro h
  exact absurd (hlead ',' h) (by decide)

/-- A comma never occurs in a plain target name. -/
theorem comma_not_mem_plain (x : Str) (hx : plainName x) : ',' ∉ x :=
  fun h => (hx ',' h).2 rfl

/-- A comma never occurs in a segment `<ws>label %<name>`. -/
theorem comma_not_mem_seg (lead x : Str) (hlead : ∀ c ∈ lead, isWs c = true)
    (hx : plainName x) : ',' ∉ lead ++ (str "label %" ++ x) := by
  intro h
  rcases List.mem_append.mp h with h | h
  · exact comma_not_mem_ws lead hlead h
  · rcases List.mem_append.mp h with h | h
    · exact absurd h (by decide)
    · exact comma_not_mem_plain x hx h

/-- A whitespace run does not contain the pattern `label `. -/
theorem ws_not_contains_label (lead : Str) (hlead : ∀ c ∈ lead, isWs c = true) :
    containsSub lead (str "label ") = false := by
  cases h : containsSub lead (str "label ") with
  | false => rfl
  | true =>
    obtain ⟨a, b, hab⟩ := exists_of_containsSub _ _ h
    have hl : 'l' ∈ lead := by
      rw [hab]
      exact List.mem_append.mpr (Or.inl (List.mem_append.mpr (Or.inr (by decide))))
    exact absurd (hlead 'l' hl) (by decide)

/-- A segment `<ws>label %<name>` contains the pattern `label `. -/
theorem seg_contains_label (lead x : Str) :
    containsSub (lead ++ (str "label %" ++ x)) (str "label ") = true := by
  have h : lead ++ (str "label %" ++ x) = lead ++ str "label " ++ ('%' :: x) := by
    rw [List.append_assoc]; rfl
  rw [h]
  exact containsSub_of_append _ _ _

/-- The last whitespace token of a segment `<ws>label %<name>` is the
`%`-prefixed target name. -/
theorem seg_lastToken (lead x : Str) (hlead : ∀ c ∈ lead, isWs c = true)
    (hx : ∀ c ∈ x, isWs c = false) :
    ((split_whitespace (lead ++ (str "label %" ++ x))).getLast?).getD [] = '%' :: x := by
  rw [split_whitespace_ws_append lead hlead, split_whitespace_label x hx]
  rfl

/-- Successor extraction over a joined list of labelled arms produces exactly
one `%`-prefixed target per arm, in order; an optional run of leading
whitespace (left behind by the previous comma split) is ignored. -/
theorem extract_join_arms :
    ∀ arms : List Str, (∀ z ∈ arms, plainName z) →
    ∀ lead : Str, (∀ c ∈ lead, isWs c = true) →
    ((splitOnChar ',' (lead ++ joinArms arms)).filter
        (fun s => containsSub s (str "label "))).map
      (fun s => ((split_whitespace s).getLast?).getD [])
      = arms.map (fun z => '%' :: z) := by
  intro arms
  induction arms with
  | nil =>
    intro _ lead hlead
    rw [show joinArms [] = [] from rfl, List.append_nil,
      splitOnChar_no_sep ',' lead (comma_not_mem_ws lead hlead)]
    simp [List.filter_cons, ws_not_contains_label lead hlead]
  | cons x xs ih =>
    intro hall lead hlead
    have hx : plainName x := hall x (List.mem_cons_self x xs)
    have hxnw : ∀ c ∈ x, isWs c = false := fun c hc => (hx c hc).1
    cases xs with
    | nil =>
      rw [show joinArms [x] = str "label %" ++ x from rfl,
        splitOnChar_no_sep ',' _ (comma_not_mem_seg lead x hlead hx)]
      simp only [List.filter_cons, seg_contains_label lead x, if_true, List.filter_nil,
        List.map_cons, List.map_nil]
      rw [seg_lastToken lead x hlead hxnw]
    | cons y ys =>
      have hxs : ∀ z ∈ y :: ys, plainName z :=
        fun z hz => hall z (List.mem_cons_of_mem x hz)
      rw [show joinArms (x :: y :: ys)
          = str "label %" ++ x ++ str ", " ++ joinArms (y :: ys) from rfl]
      have harr : lead ++ (str "label %" ++ x ++ str ", " ++ joinArms (y :: ys))
          = (lead ++ (str "label %" ++ x)) ++ ',' :: ([' '] ++ joinArms (y :: ys)) := by
        simp [List.append_assoc]; rfl
      rw [harr, splitOnChar_append_sep ',' _ _ (comma_not_mem_seg lead x hlead hx)]
      simp only [List.filter_cons, seg_contains_label lead x, if_true, List.map_cons]
      rw [seg_lastToken lead x hlead hxnw, ih hxs [' '] (by intro c hc; simp at hc; subst hc; rfl)]
      rfl

/-- The `jump_re` capture of a line `br <rest>`. -/
theorem jumpMatch_br (mid : Str) :
    jumpMatch (str "br " ++ mid) = some (mid.dropWhile isWs) := rfl

/-- When the line matches `jump_re`, the extracted targets are appended to
the open block's successor list (and nothing else changes there). -/
theorem applyInstr_successors (l : Str) (b : BasicBlock) (jc : Str)
    (hj : jumpMatch l = some jc) :
    (applyInstr l b).successors = b.successors ++ extractTargets jc := by
  unfold applyInstr
  rw [hj]
  by_cases h : trimChars l ≠ [] <;> simp [h]

/-- Every line processed by the body loop either opens a labelled block,
closes the body, or goes to the open (possibly implicit) block. -/
theorem stepLine_cases (l : Str) (blocks : List BasicBlock) (cur : Option BasicBlock) :
    (∃ name preds, stepLine l blocks cur = .cont (finalize cur blocks)
        (some { name := name, instructions := [], predecessors := preds,
                successors := [] }))
    ∨ stepLine l blocks cur = .done (finalize cur blocks)
    ∨ stepLine l blocks cur = .cont blocks (some (applyInstr l (cur.getD implicitBlock))) := by
  unfold stepLine
  cases blockNameMatch l with
  | some p =>
    obtain ⟨name, ann⟩ := p
    exact Or.inl ⟨name, _, rfl⟩
  | none =>
    by_cases h : l = str "\x7d"
    · rw [if_pos h]
      exact Or.inr (Or.inl rfl)
    · rw [if_neg h]
      exact Or.inr (Or.inr rfl)

/-- The body loop stops early only on the closing-brace line. -/
theorem stepLine_done_imp (l : Str) (blocks : List BasicBlock)
    (cur : Option BasicBlock) (bs : List BasicBlock)
    (h : stepLine l blocks cur = .done bs) : l = str "\x7d" := by
  unfold stepLine at h
  cases hm : blockNameMatch l with
  | some p =>
    obtain ⟨name, ann⟩ := p
    rw [hm] at h
    cases h
  | none =>
    rw [hm] at h
    by_cases hl : l = str "\x7d"
    · exact hl
    · rw [if_neg hl] at h
      cases h

/-- Without a closing-brace line, the body loop consumes all its input. -/
theorem parse_function_no_close :
    ∀ (ls : List Str) (blocks : List BasicBlock) (cur : Option BasicBlock),
    str "\x7d" ∉ ls → (parse_function ls blocks cur).2 = [] := by
  intro ls
  induction ls with
  | nil => intro _ _ _; rfl
  | cons l ls ih =>
    intro blocks cur h
    have hl : l ≠ str "\x7d" := fun he => h (he ▸ List.mem_cons_self l ls)
    have hls : str "\x7d" ∉ ls := fun hm => h (List.mem_cons_of_mem l hm)
    simp only [parse_function]
    cases hs : stepLine l blocks cur with
    | done bs => exact absurd (stepLine_done_imp l blocks cur bs hs) hl
    | cont bs c => exact ih bs c hls

/-- Processing an instruction line preserves the no-blank-line invariant. -/
theorem goodBlock_applyInstr (l : Str) (b : BasicBlock)
    (hb : goodBlock b = true) : goodBlock (applyInstr l b) = true := by
  unfold applyInstr
  cases hj : jumpMatch l <;>
    by_cases h : trimChars l ≠ [] <;>
      simp_all [goodBlock, List.all_append]

/-- Finalizing preserves a blockwise invariant. -/
theorem finalize_good (P : BasicBlock → Prop) (blocks : List BasicBlock)
    (cur : Option BasicBlock) (h1 : ∀ b ∈ blocks, P b)
    (h2 : ∀ b, cur = some b → P b) :
    ∀ b ∈ finalize cur blocks, P b := by
  intro b hb
  cases cur with
  | none => exact h1 b hb
  | some c =>
    simp only [finalize] at hb
    rcases List.mem_append.mp hb with h | h
    · exact h1 b h
    · rw [List.mem_singleton.mp h]
      exact h2 c rfl

/-- The body loop only ever produces blocks satisfying the no-blank-line
invariant, given that the accumulated state does. -/
theorem parse_function_good :
    ∀ (ls : List Str) (blocks : List BasicBlock) (cur : Option BasicBlock),
    (∀ b ∈ blocks, goodBlock b = true) →
    (∀ b, cur = some b → goodBlock b = true) →
    ∀ b ∈ (parse_function ls blocks cur).1, goodBlock b = true := by
  intro ls
  induction ls with
  | nil =>
    intro blocks cur h1 h2
    exact finalize_good _ blocks cur h1 h2
  | cons l ls ih =>
    intro blocks cur h1 h2
    simp only [parse_function]
    rcases stepLine_cases l blocks cur with ⟨name, preds, heq⟩ | heq | heq <;> rw [heq]
    · refine ih _ _ (finalize_good _ blocks cur h1 h2) ?_
      intro b hb
      cases hb
      rfl
    · exact finalize_good _ blocks cur h1 h2
    · refine ih _ _ h1 ?_
      intro b hb
      cases hb
      refine goodBlock_applyInstr l _ ?_
      cases hc : cur with
      | none => rfl
      | some c => exact h2 c hc

/-- C2: for every branch-instruction line processed inside an open block,
successor extraction appends one target per labelled arm in left-to-right
declaration order: `br label %X` appends exactly `["%X"]`; the two-target
conditional `br i1 %c, label %X, label %Y` appends exactly `["%X", "%Y"]` in
that order; a multi-way branch (any list of labelled arms) appends one
successor per arm, in declaration order. -/
theorem C2_branch_targets (b : BasicBlock) :
    (∀ x : Str, plainName x →
      (applyInstr (str "br label %" ++ x) b).successors
        = b.successors ++ ['%' :: x]) ∧
    (∀ x y : Str, plainName x → plainName y →
      (applyInstr (str "br i1 %c, label %" ++ (x ++ (str ", label %" ++ y))) b).successors
        = b.successors ++ ['%' :: x, '%' :: y]) ∧
    (∀ arms : List Str, (∀ z ∈ arms, plainName z) →
      (applyInstr (str "br " ++ joinArms arms) b).successors
        = b.successors ++ arms.map (fun z => '%' :: z)) := by
  have hmulti : ∀ arms : List Str, (∀ z ∈ arms, plainName z) →
      (applyInstr (str "br " ++ joinArms arms) b).successors
        = b.successors ++ arms.map (fun z => '%' :: z) := by
    intro arms hall
    rw [applyInstr_successors _ _ _ (jumpMatch_br (joinArms arms))]
    have hdw : (joinArms arms).dropWhile isWs = joinArms arms := by
      cases arms with
      | nil => rfl
      | cons z zs => cases zs <;> rfl
    rw [hdw]
    have := extract_join_arms arms hall [] (by intro c hc; cases hc)
    unfold extractTargets
    exact congrArg (b.successors ++ ·) this
  refine ⟨?_, ?_, hmulti⟩
  · intro x hx
    have h1 := hmulti [x] (by
      intro z hz
      rw [List.mem_singleton.mp hz]
      exact hx)
    exact h1
  · intro x y hx hy
    rw [applyInstr_successors (str "br i1 %c, label %" ++ (x ++ (str ", label %" ++ y))) b
      (str "i1 %c, label %" ++ (x ++ (str ", label %" ++ y))) rfl]
    have h0 : containsSub (str "i1 %c") (str "label ") = false := by decide
    have harr : str "i1 %c, label %" ++ (x ++ (str ", label %" ++ y))
        = str "i1 %c" ++ ',' :: ([' '] ++ joinArms [x, y]) := by
      rw [show joinArms [x, y] = str "label %" ++ x ++ str ", " ++ joinArms [y] from rfl,
        show joinArms [y] = str "label %" ++ y from rfl]
      simp [List.append_assoc]
      rfl
    unfold extractTargets
    rw [harr, splitOnChar_append_sep ',' _ _ (by decide)]
    simp only [List.filter_cons, h0, Bool.false_eq_true, if_false]
    rw [extract_join_arms [x, y] (by
        intro z hz
        rcases List.mem_cons.mp hz with h | h
        · rw [h]; exact hx
        · rw [List.mem_singleton.mp h]; exact hy)
      [' '] (by intro c hc; simp at hc; subst hc; rfl)]
    rfl

/-- Witness for C2 at concrete target names. -/
theorem C2_branch_targets_witness :
    (applyInstr (str "br label %a")
        { name := [], instructions := [], predecessors := [], successors := [] }).successors
      = [str "%a"]
    ∧ (applyInstr (str "br i1 %c, label %x, label %y")
        { name := [], instructions := [], predecessors := [], successors := [] }).successors
      = [str "%x", str "%y"] :=
  ⟨(C2_branch_targets _).1 (str "a") (by decide),
   (C2_branch_targets _).2.1 (str "x") (str "y") (by decide) (by decide)⟩

/-- C10: successor extraction is total: every comma segment of a
branch-instruction capture that contains the substring `label ` has at least
one whitespace-delimited token, so taking the segment's last token cannot
fail (the `unwrap` at the extraction site never panics). -/
theorem C10_last_token_total (l jc : Str) (_hj : jumpMatch l = some jc)
    (seg : Str) (_hseg : seg ∈ splitOnChar ',' jc)
    (hlab : containsSub seg (str "label ") = true) :
    ((split_whitespace seg).getLast?).isSome = true := by
  obtain ⟨a, b, hab⟩ := exists_of_containsSub _ _ hlab
  have hl : 'l' ∈ seg := by
    rw [hab]
    exact List.mem_append.mpr (Or.inl (List.mem_append.mpr (Or.inr (by decide))))
  exact List.getLast?_isSome.mpr (split_whitespace_ne_nil seg 'l' hl (by decide))

/-- Witness for C10 at a concrete conditional-branch line. -/
theorem C10_last_token_total_witness :
    ((split_whitespace (str " label %b")).getLast?).isSome = true :=
  C10_last_token_total (str "  br i1 %a, label %b") (str "i1 %a, label %b")
    (by decide) (str " label %b") (by decide) (by decide)

/-- C6: a malformed structural line never raises an error: a block-label
line without a predecessor annotation opens a block with an empty
predecessor list (and scanning continues with the next line); a branch line
none of whose comma segments contains the label marker appends no successor.
Within the recognizer a matching label line's annotation is either absent or
well formed, so an unparsable annotation can only make the whole line fail
the label pattern, in which case it is consumed as plain instruction text —
also without an error. -/
theorem C6_degrades_gracefully (l : Str) (blocks : List BasicBlock)
    (cur : Option BasicBlock) (name : Str) (jc : Str) (b : BasicBlock) :
    (blockNameMatch l = some (name, none) →
      stepLine l blocks cur = .cont (finalize cur blocks)
        (some { name := name, instructions := [], predecessors := [],
                successors := [] })) ∧
    (jumpMatch l = some jc →
      (splitOnChar ',' jc).filter (fun s => containsSub s (str "label ")) = [] →
      (applyInstr l b).successors = b.successors) := by
  constructor
  · intro h
    unfold stepLine
    rw [h]
  · intro hj hfil
    rw [applyInstr_successors l b jc hj]
    unfold extractTargets
    rw [hfil]
    simp

/-- Witness for C6: a bare label line and a branch with no labelled operand. -/
theorem C6_degrades_gracefully_witness :
    stepLine (str "entry:") [] none
      = .cont [] (some { name := str "entry", instructions := [],
                         predecessors := [], successors := [] })
    ∧ (applyInstr (str "  br somewhere")
        { name := [], instructions := [], predecessors := [], successors := [] }).successors
      = [] :=
  ⟨(C6_degrades_gracefully (str "entry:") [] none (str "entry") []
      { name := [], instructions := [], predecessors := [], successors := [] }).1 (by decide),
   (C6_degrades_gracefully (str "  br somewhere") [] none (str "entry") (str "somewhere")
      { name := [], instructions := [], predecessors := [], successors := [] }).2
      (by decide) (by decide)⟩

/-- C7: no basic block produced by the body loop has an instruction entry
that is empty or consists only of whitespace. -/
theorem C7_no_blank_instructions (lines : List Str) (b : BasicBlock)
    (hb : b ∈ (parse_function lines [] none).1) : goodBlock b = true :=
  parse_function_good lines [] none (fun _ h => absurd h (List.not_mem_nil _))
    (fun _ h => Option.noConfusion h) b hb

/-- Witness for C7 on a one-line body. -/
theorem C7_no_blank_instructions_witness :
    goodBlock { name := str "%1", instructions := [str "  ret void"],
                predecessors := [], successors := [] } = true :=
  C7_no_blank_instructions [str "  ret void"] _ (by decide)

/-- Edge lines start with a tab. -/
theorem isEdgeLine_edge (src dn : Str) : isEdgeLine (edgeLine src dn) = true := rfl

/-- A line starting with a percent sign is not an edge line. -/
theorem isEdgeLine_pct (z : Str) : isEdgeLine ('%' :: z) = false := rfl

/-- A style line is not an edge line. -/
theorem isEdgeLine_style (z : Str) :
    isEdgeLine (str "style " ++ z) = false := rfl

/-- Every display name starts with a percent sign. -/
theorem displayName_pct (name : Str) : ∃ t, displayName name = '%' :: t := by
  unfold displayName
  by_cases h : name = []
  · rw [if_pos h]; exact ⟨['1'], rfl⟩
  · rw [if_neg h]; exact ⟨name, rfl⟩

/-- The edge lines among a rendered block's lines are exactly one per
predecessor entry, in list order. -/
theorem renderBlock_edges (abbr : Bool) (b : BasicBlock) :
    (renderBlock abbr b).filter isEdgeLine
      = b.predecessors.map (fun p => edgeLine p (displayName b.name)) := by
  obtain ⟨t, ht⟩ := displayName_pct b.name
  unfold renderBlock
  simp only [List.filter_append]
  have he : (b.predecessors.map (fun p => edgeLine p (displayName b.name))).filter isEdgeLine
      = b.predecessors.map (fun p => edgeLine p (displayName b.name)) := by
    refine List.filter_eq_self.mpr ?_
    intro ln hln
    obtain ⟨p, _, rfl⟩ := List.mem_map.mp hln
    exact isEdgeLine_edge p (displayName b.name)
  have hn : (if abbr = false then [nodeLine (displayName b.name) b.instructions]
      else []).filter isEdgeLine = [] := by
    cases abbr with
    | true => rfl
    | false =>
      have : isEdgeLine (nodeLine (displayName b.name) b.instructions) = false := by
        rw [ht]
        exact isEdgeLine_pct _
      simp [List.filter_cons, this]
  have hs1 : (if isRet b then [str "style " ++ displayName b.name ++ str " stroke:#0f0"]
      else []).filter isEdgeLine = [] := by
    cases isRet b
    · rfl
    · simp [List.filter_cons, isEdgeLine_style]
  have hs2 : (if isUnreach b then [str "style " ++ displayName b.name ++ str " stroke:#f00"]
      else []).filter isEdgeLine = [] := by
    cases isUnreach b
    · rfl
    · simp [List.filter_cons, isEdgeLine_style]
  rw [he, hn, hs1, hs2, List.append_nil, List.append_nil, List.append_nil]

/-- C3: for every rendered block, exactly one directed-edge line is emitted
per entry of its predecessor list, in list order, each edge going from the
predecessor entry as displayed to the block's display name and carrying an
edge label equal to the block's display name; in particular a block with
declared predecessors `[a, c]` gets exactly two edge lines, one from `a` and
one from `c`, in that order. -/
theorem C3_one_edge_per_pred (abbr : Bool) (b : BasicBlock) (a c : Str) :
    ((renderBlock abbr b).filter isEdgeLine
      = b.predecessors.map (fun p => edgeLine p (displayName b.name)))
    ∧ ((renderBlock abbr { b with predecessors := [a, c] }).filter isEdgeLine
      = [edgeLine a (displayName b.name), edgeLine c (displayName b.name)]) := by
  refine ⟨renderBlock_edges abbr b, ?_⟩
  rw [renderBlock_edges abbr { b with predecessors := [a, c] }]
  rfl

/-- C8: for a rendered block whose last instruction line, after trimming,
begins with `ret `, the renderer emits a style directive giving the node a
green (`stroke:#0f0`) outline; if it begins with `unreachable`, a red
(`stroke:#f00`) outline. -/
theorem C8_style_directives (abbr : Bool) (b : BasicBlock) (last : Str)
    (hl : b.instructions.getLast? = some last) :
    ((str "ret ").isPrefixOf (trimChars last) = true →
      (str "style " ++ displayName b.name ++ str " stroke:#0f0") ∈ renderBlock abbr b) ∧
    ((str "unreachable").isPrefixOf (trimChars last) = true →
      (str "style " ++ displayName b.name ++ str " stroke:#f00") ∈ renderBlock abbr b) := by
  constructor <;> intro hpre <;> unfold renderBlock
  · have hr : isRet b = true := by
      unfold isRet
      rw [hl]
      exact hpre
    rw [hr]
    simp [List.mem_append]
  · have hu : isUnreach b = true := by
      unfold isUnreach
      rw [hl]
      exact hpre
    rw [hu]
    simp [List.mem_append]

/-- Witness for C8 on ret- and unreachable-terminated blocks. -/
theorem C8_style_directives_witness :
    (str "style " ++ displayName (str "x") ++ str " stroke:#0f0")
      ∈ renderBlock false { name := str "x", instructions := [str "  ret void"],
                            predecessors := [], successors := [] }
    ∧ (str "style " ++ displayName (str "y") ++ str " stroke:#f00")
      ∈ renderBlock false { name := str "y", instructions := [str "  unreachable"],
                            predecessors := [], successors := [] } :=
  ⟨(C8_style_directives false _ (str "  ret void") (by decide)).1 (by decide),
   (C8_style_directives false _ (str "  unreachable") (by decide)).2 (by decide)⟩

/-- C9: the renderer is a deterministic function of the Function value and
the abbreviated flag, so rendering the same Function twice with the same
flag yields identical output text. -/
theorem C9_deterministic (f g : Function) (a b : Bool)
    (hf : f = g) (hab : a = b) : dump_cfg f a = dump_cfg g b := by
  rw [hf, hab]

/-- Witness for C9 on a concrete function. -/
theorem C9_deterministic_witness :
    dump_cfg { name := str "f", define := str "d", blocks := [] } true
      = dump_cfg { name := str "f", define := str "d", blocks := [] } true :=
  C9_deterministic _ _ _ _ rfl rfl

/-- C1: evaluation of the code on a function body whose first line is
instruction text.  The Block Segmenter opens the implicit block with the
name `%1` — not the empty string — so the Diagram Renderer, which prepends
`%` to every nonempty name and reserves `%1` for the empty name, displays it
as `%%1`.  This contradicts the spec (and the source's own comment
`entry has name ""` on the `name` field, and the otherwise-dead empty-name
special case in `dump_cfg`), which want an empty-named implicit block
displayed as `%1`: the code is the slip. -/
theorem C1_implicit_block_name :
    parse_ll_file [str "define void @f() \x7b", str "  ret void", str "\x7d"]
      = [{ name := str "f", define := str "define void @f() \x7b",
           blocks := [{ name := str "%1", instructions := [str "  ret void"],
                        predecessors := [], successors := [] }] }]
    ∧ displayName (str "%1") = str "%%1"
    ∧ displayName [] = str "%1" := by decide

/-- The length equation behind C4, by strong induction on the line count. -/
theorem C4_aux : ∀ (n : Nat) (lines : List Str), lines.length ≤ n →
    (parse_ll_file lines).length = countHeaders lines := by
  intro n
  induction n with
  | zero =>
    intro lines h
    have : lines = [] := List.eq_nil_of_length_eq_zero (Nat.le_zero.mp h)
    subst this
    rfl
  | succ n ih =>
    intro lines h
    cases lines with
    | nil => rfl
    | cons l ls =>
      rw [parse_ll_file_cons, countHeaders_cons]
      simp only [List.length_cons, Nat.add_le_add_iff_right] at h
      cases hh : headerMatch l with
      | none => exact ih ls h
      | some name =>
        simp only [List.length_cons]
        rw [ih _ (le_trans (parse_function_rest_le ls [] none) h)]
        exact Nat.add_comm _ 1

/-- C4: for every input line sequence, the number of Function records
produced equals the number of lines matching the header pattern at the top
level; lines consumed inside a body (tracked by the shared cursor) are never
reconsidered as headers. -/
theorem C4_function_count (lines : List Str) :
    (parse_ll_file lines).length = countHeaders lines :=
  C4_aux lines.length lines le_rfl

/-- C5: when the input is exhausted before a closing-brace line, the body
loop finalizes the open block and returns the accumulated list, and the
truncated body still yields exactly one Function record containing all the
blocks parsed up to the truncation point; no error is raised. -/
theorem C5_truncated_body (h name : Str) (body : List Str)
    (bs : List BasicBlock) (b : BasicBlock)
    (hh : headerMatch h = some name) (hb : str "\x7d" ∉ body) :
    parse_ll_file (h :: body)
      = [{ name := name, define := h, blocks := (parse_function body [] none).1 }]
    ∧ parse_function [] bs (some b) = (bs ++ [b], []) := by
  refine ⟨?_, rfl⟩
  rw [parse_ll_file_cons, hh, parse_function_no_close body [] none hb]
  rfl

/-- Witness for C5 on a truncated two-line body. -/
theorem C5_truncated_body_witness :
    parse_ll_file [str "define void @f() \x7b", str "entry:", str "  ret void"]
      = [{ name := str "f", define := str "define void @f() \x7b",
           blocks := [{ name := str "entry", instructions := [str "  ret void"],
                        predecessors := [], successors := [] }] }] := by
  rw [(C5_truncated_body (str "define void @f() \x7b") (str "f")
      [str "entry:", str "  ret void"] []
      { name := [], instructions := [], predecessors := [], successors := [] }
      (by decide) (by decide)).1]
  decide

end LL
